import Mathlib

/-!
Verification of the `array-lit` crate: the `arr!` and `vec!` macros
(src/src/lib.rs) that expand partial array/`Vec` literal specifications
into a default-filled container followed by indexed element assignments.

Shallow embedding: a literal specification is a value of `ArrLit` (one
constructor per macro arm); the run-time behaviour of the expanded code
is a function from the specification to `Option (List α)`, where `none`
models a run-time panic of an emitted out-of-bounds indexed assignment
(`arr[i] = v` panics in the host language when `i` is out of range).
A specification that matches no macro arm (e.g. positional elements
without a default that do not cover the length) is not representable
as an `ArrLit`, which models the build-time rejection.
-/

namespace ArrayLit

/-- Conclusions of the `arr!` macro grammar (src/src/lib.rs lines 143-176):
one constructor per macro arm, in source order.
`defaultSparse` is `arr![default: d, i1: v1, ...; len]`;
`positionalDefault` is `arr![p1, p2, ...; default: d, i1: v1, ...; len]`;
`rep` is `arr![v; len]`;
`explicit` is `arr![a, b, c]`;
`explicitTrailing` is `arr![a, b, c,]` (trailing comma). -/
inductive ArrLit (α : Type) where
  | defaultSparse (d : α) (overrides : List (Nat × α)) (len : Nat)
  | positionalDefault (items : List α) (d : α) (overrides : List (Nat × α)) (len : Nat)
  | rep (v : α) (len : Nat)
  | explicit (items : List α)
  | explicitTrailing (items : List α)

variable {α : Type}

/-- Host-language indexed assignment `arr[i] = v`: in-range it updates the
element, out of range it panics (modelled as `none`). -/
def assign (l : List α) (i : Nat) (v : α) : Option (List α) :=
  if i < l.length then some (l.set i v) else none

/-- Sequence of consecutive indexed assignments
`arr[i] = s0; arr[i+1] = s1; ...`, as emitted for the positional elements
of the `arr!`/`vec!` macros (`arr[i] = $item; i += 1;` unrolled,
src/src/lib.rs lines 157-161); stops at the first panic. -/
def assignList (l : List α) (i : Nat) : List α → Option (List α)
  | [] => some l
  | v :: vs =>
    match assign l i v with
    | some l2 => assignList l2 (i + 1) vs
    | none => none

/-- Sequence of sparse indexed assignments `$( arr[$idx] = $sparse; )*`
(src/src/lib.rs lines 148 and 162); stops at the first panic. -/
def applySingles (l : List α) : List (Nat × α) → Option (List α)
  | [] => some l
  | (i, v) :: os =>
    match assign l i v with
    | some l2 => applySingles l2 os
    | none => none

/-- Run-time behaviour of the code emitted by the `arr!` macro
(src/src/lib.rs lines 143-176), arm by arm.  `[d; len]` is
`List.replicate len d`. -/
def arr : ArrLit α → Option (List α)
  | .defaultSparse d os len => applySingles (List.replicate len d) os
  | .positionalDefault items d os len =>
    match assignList (List.replicate len d) 0 items with
    | some l2 => applySingles l2 os
    | none => none
  | .rep v len => some (List.replicate len v)
  | .explicit items => some items
  | .explicitTrailing items => some items

/-- Run-time behaviour of the code emitted by the `vec!` macro
(src/src/lib.rs lines 193-226), arm by arm.  `std::vec![d; len]` builds
the same sequence `List.replicate len d`; `Vec` indexed assignment has
the same panic-on-out-of-range semantics as array indexed assignment. -/
def vec : ArrLit α → Option (List α)
  | .defaultSparse d os len => applySingles (List.replicate len d) os
  | .positionalDefault items d os len =>
    match assignList (List.replicate len d) 0 items with
    | some l2 => applySingles l2 os
    | none => none
  | .rep v len => some (List.replicate len v)
  | .explicit items => some items
  | .explicitTrailing items => some items

/-- Modelled from the spec: an index-keyed override of the override-block
form `lit[d; N; { i: v, [j]: [v1, v2, ...], ... }]` (spec section 6; the
macro arm implementing this form is absent from src/src/lib.rs, only its
tests are in src/src/tests.rs).  An override targets a single index or a
contiguous run starting at a given index. -/
inductive Override (α : Type) where
  | single (i : Nat) (v : α)
  | run (i : Nat) (vals : List α)

/-- Modelled from the spec: a single-index override is one indexed
assignment; a run override is copied element-by-element to consecutive
indices starting at its stated index (spec section 4.1). -/
def applyOverride (l : List α) : Override α → Option (List α)
  | .single i v => assign l i v
  | .run i vals => assignList l i vals

/-- Modelled from the spec: index-keyed overrides apply in the order
written (spec section 4.1, execution order). -/
def applyOverrides (l : List α) : List (Override α) → Option (List α)
  | [] => some l
  | o :: os =>
    match applyOverride l o with
    | some l2 => applyOverrides l2 os
    | none => none

/-- Modelled from the spec: the override-block form
`lit[d; N; { ... }]` default-fills a container of length `N` with `d`
and then applies the overrides in written order (spec section 6). -/
def arrBlock (d : α) (len : Nat) (os : List (Override α)) : Option (List α) :=
  applyOverrides (List.replicate len d) os

/-- Total (never-panicking) version of consecutive assignment: assign the
values of `s` at indices `i, i+1, ...` by `List.set` (which ignores
out-of-range indices).  Used to state the spec-side description of the
expansion. -/
def setSeq (l : List α) (i : Nat) : List α → List α
  | [] => l
  | v :: vs => setSeq (l.set i v) (i + 1) vs

/-- Spec-side description of the positional+default+overrides expansion,
following the claim's words: first fill all `len` positions with the
default, then assign the positional elements at indices `0..k-1` in
listed order, then apply each override in written order, a later
assignment to the same index overwriting an earlier one (`List.set`
applied left to right). -/
def specDescribedBuild (items : List α) (d : α) (os : List (Nat × α)) (len : Nat) : List α :=
  os.foldl (fun l p => l.set p.1 p.2) (setSeq (List.replicate len d) 0 items)

/-- Bounds check for a specification: the positional elements fit in the
target length and every override index is within the target length.
Specifications passing this check make the emitted code perform only
in-range assignments. -/
def inBoundsB : ArrLit α → Bool
  | .defaultSparse _ os len => os.all fun p => decide (p.1 < len)
  | .positionalDefault items _ os len =>
    decide (items.length ≤ len) && os.all fun p => decide (p.1 < len)
  | .rep _ _ => true
  | .explicit _ => true
  | .explicitTrailing _ => true

/-! ### Helper lemmas -/

theorem assign_of_lt (l : List α) (i : Nat) (v : α) (h : i < l.length) :
    assign l i v = some (l.set i v) := by
  simp [assign, h]

theorem assign_of_ge (l : List α) (i : Nat) (v : α) (h : l.length ≤ i) :
    assign l i v = none := by
  simp [assign, Nat.not_lt.mpr h]

theorem length_setSeq (s : List α) (l : List α) (i : Nat) :
    (setSeq l i s).length = l.length := by
  induction s generalizing l i with
  | nil => rfl
  | cons v vs ih => simp [setSeq, ih, List.length_set]

theorem assignList_eq_setSeq (s : List α) (l : List α) (i : Nat)
    (h : i + s.length ≤ l.length) :
    assignList l i s = some (setSeq l i s) := by
  induction s generalizing l i with
  | nil => rfl
  | cons v vs ih =>
    simp only [List.length_cons] at h
    have hi : i < l.length := by omega
    rw [assignList, assign_of_lt l i v hi, setSeq]
    exact ih (l.set i v) (i + 1) (by rw [List.length_set]; omega)

theorem applySingles_eq_foldl (os : List (Nat × α)) (l : List α)
    (h : ∀ p ∈ os, p.1 < l.length) :
    applySingles l os = some (os.foldl (fun l p => l.set p.1 p.2) l) := by
  induction os generalizing l with
  | nil => rfl
  | cons o os ih =>
    obtain ⟨i, v⟩ := o
    have hi : i < l.length := h (i, v) (List.mem_cons_self _ _)
    rw [applySingles, assign_of_lt l i v hi, List.foldl_cons]
    exact ih (l.set i v) fun p hp => by
      rw [List.length_set]; exact h p (List.mem_cons_of_mem _ hp)

theorem applySingles_eq_none_iff (os : List (Nat × α)) (l : List α) :
    applySingles l os = none ↔ ∃ p ∈ os, l.length ≤ p.1 := by
  induction os generalizing l with
  | nil => simp [applySingles]
  | cons o os ih =>
    obtain ⟨i, v⟩ := o
    by_cases hi : i < l.length
    · rw [applySingles, assign_of_lt l i v hi]
      simp only [ih (l.set i v), List.length_set, List.mem_cons]
      constructor
      · rintro ⟨p, hp, hlen⟩
        exact ⟨p, Or.inr hp, hlen⟩
      · rintro ⟨p, hp | hp, hlen⟩
        · exact absurd hlen (by simp [hp]; omega)
        · exact ⟨p, hp, hlen⟩
    · rw [applySingles, assign_of_ge l i v (Nat.not_lt.mp hi)]
      simp only [true_iff]
      exact ⟨(i, v), List.mem_cons_self _ _, Nat.not_lt.mp hi⟩

theorem getElem?_setSeq_of_lt (s : List α) (l : List α) (i j : Nat) (h : j < i) :
    (setSeq l i s)[j]? = l[j]? := by
  induction s generalizing l i with
  | nil => rfl
  | cons v vs ih =>
    rw [setSeq, ih (l.set i v) (i + 1) (by omega)]
    exact List.getElem?_set_ne (by omega)

theorem getElem?_setSeq_of_ge (s : List α) (l : List α) (i j : Nat)
    (h : i + s.length ≤ j) :
    (setSeq l i s)[j]? = l[j]? := by
  induction s generalizing l i with
  | nil => rfl
  | cons v vs ih =>
    rw [setSeq, ih (l.set i v) (i + 1) (by simp at h ⊢; omega)]
    exact List.getElem?_set_ne (by simp at h; omega)

theorem getElem?_setSeq_mid (s : List α) (l : List α) (i k : Nat)
    (hk : k < s.length) (hlen : i + s.length ≤ l.length) :
    (setSeq l i s)[i + k]? = s[k]? := by
  induction s generalizing l i k with
  | nil => exact absurd hk (by simp)
  | cons v vs ih =>
    match k with
    | 0 =>
      rw [setSeq, getElem?_setSeq_of_lt vs (l.set i v) (i + 1) (i + 0) (by omega)]
      have hi : i < l.length := by simp at hlen; omega
      simp [List.getElem?_set_self hi]
    | k + 1 =>
      rw [setSeq]
      have : i + (k + 1) = (i + 1) + k := by omega
      rw [this, ih (l.set i v) (i + 1) k (by simpa using hk)
        (by simp [List.length_set]; simp at hlen; omega)]
      simp

theorem applyOverrides_cons (l : List α) (o : Override α) (os : List (Override α)) :
    applyOverrides l (o :: os) =
      match applyOverride l o with
      | some l2 => applyOverrides l2 os
      | none => none := rfl

/-! ### Claim theorems -/

/-- C2: for every specification that supplies a default value `d` and
target length `N` with no positional elements and no index overrides
(the `arr![default: d; N]` / `vec![default: d; N]` arm with an empty
override list), the resulting sequence equals `N` copies of `d`:
length `N` and every position holds `d`. -/
theorem default_only_replicates (d : α) (len : Nat) :
    arr (ArrLit.defaultSparse d [] len) = some (List.replicate len d) ∧
    vec (ArrLit.defaultSparse d [] len) = some (List.replicate len d) ∧
    (List.replicate len d).length = len ∧
    ∀ j, j < len → (List.replicate len d)[j]? = some d := by
  refine ⟨rfl, rfl, List.length_replicate len d, fun j hj => ?_⟩
  simp [List.getElem?_replicate, hj]

/-- C3: for every specification consisting solely of an explicit list of
positional elements (the `arr![a, b, c]` / `vec![a, b, c]` arm), the
resulting sequence is that list verbatim.  The statement is parametric
in an arbitrary element type `α` and no copy/duplication operation on
`α` is used anywhere in the expansion of this arm (no `List.replicate`
default-fill occurs), which is the non-`Copy`-types guarantee. -/
theorem explicit_list_verbatim (items : List α) :
    arr (ArrLit.explicit items) = some items ∧
    vec (ArrLit.explicit items) = some items :=
  ⟨rfl, rfl⟩

/-- C7: for every value `v` and length `N`, the repeat form
`arr![v; N]` / `vec![v; N]` produces exactly `N` copies of `v`,
identical to the host language's plain repeat literal
(`List.replicate N v`), with no override phase applied. -/
theorem repeat_form_replicates (v : α) (len : Nat) :
    arr (ArrLit.rep v len) = some (List.replicate len v) ∧
    vec (ArrLit.rep v len) = some (List.replicate len v) ∧
    (List.replicate len v).length = len ∧
    ∀ j, j < len → (List.replicate len v)[j]? = some v := by
  refine ⟨rfl, rfl, List.length_replicate len v, fun j hj => ?_⟩
  simp [List.getElem?_replicate, hj]

/-- C9: for every specification, the fixed-size sequence produced by the
`arr!` macro and the dynamically-sized sequence produced by the `vec!`
macro agree elementwise: the two emission targets denote the same
sequence (including agreement on which specifications panic). -/
theorem arr_eq_vec (lit : ArrLit α) : arr lit = vec lit := by
  cases lit <;> rfl

/-- C10: for every explicit element list, the trailing-comma arm
`arr![a, b, c,]` produces the same sequence as the arm without the
trailing comma `arr![a, b, c]`, for both emission targets. -/
theorem trailing_comma_same (items : List α) :
    arr (ArrLit.explicitTrailing items) = arr (ArrLit.explicit items) ∧
    vec (ArrLit.explicitTrailing items) = vec (ArrLit.explicit items) :=
  ⟨rfl, rfl⟩

/-- C1: for positional elements `items`, default `d`, overrides `os` and
target length `len` (with all emitted assignments in range), the
expansion of `arr![items; default: d, os; len]` equals the sequence
described by the spec: fill all `len` positions with `d`, assign the
positional elements at indices `0..k-1` in listed order, then apply
each override in written order, a later assignment to the same index
overwriting an earlier one (`specDescribedBuild`). -/
theorem positional_then_overrides (items : List α) (d : α) (os : List (Nat × α))
    (len : Nat) (h1 : items.length ≤ len) (h2 : ∀ p ∈ os, p.1 < len) :
    arr (ArrLit.positionalDefault items d os len) =
      some (specDescribedBuild items d os len) := by
  have ha := assignList_eq_setSeq items (List.replicate len d) 0
    (by rw [List.length_replicate]; omega)
  have hs := applySingles_eq_foldl os (setSeq (List.replicate len d) 0 items)
    (fun p hp => by rw [length_setSeq, List.length_replicate]; exact h2 p hp)
  simp only [arr, ha, hs]
  rfl

/-- C1 witness: the claim's concrete example, positional `[1, 2, 3]`,
default `4`, override `(1, 5)`, length `5`, yields `[1, 5, 3, 4, 4]`
(the override at index 1 overwrites the positional element `2`). -/
theorem positional_then_overrides_witness :
    arr (ArrLit.positionalDefault [1, 2, 3] 4 [(1, 5)] 5) = some [1, 5, 3, 4, 4] :=
  (positional_then_overrides [1, 2, 3] 4 [(1, 5)] 5 (by decide) (by decide)).trans
    (by decide)

/-- C4 counterexample: a specification that the expander accepts (it
matches the positional+default macro arm, src/src/lib.rs lines 152-166)
whose emitted code nevertheless has a runtime error path: three
positional elements into a target of length 2 make the third emitted
assignment `arr[2] = 3` / `vec[2] = 3` index out of bounds, a runtime
panic (`none`).  This refutes the claim that the static coverage check
is the only failure mode. -/
theorem accepted_spec_runtime_panic :
    vec (ArrLit.positionalDefault ([1, 2, 3] : List Nat) 0 [] 2) = none := by
  decide

/-- C4 (amended): a specification that neither enumerates all positions
nor supplies a default matches no macro arm (modelled: it is not
representable as an `ArrLit`); an accepted specification whose
positional elements fit the target length and whose override indices
are all within bounds (`inBoundsB`) produces a value with no runtime
error path, for both emission targets.  (Unlike the original claim,
accepted specifications with out-of-range indices do panic at runtime,
see the counterexample.) -/
theorem inbounds_accepted_no_panic (lit : ArrLit α) (h : inBoundsB lit = true) :
    (arr lit).isSome = true ∧ (vec lit).isSome = true := by
  cases lit with
  | defaultSparse d os len =>
    simp only [inBoundsB, List.all_eq_true, decide_eq_true_eq] at h
    have hs := applySingles_eq_foldl os (List.replicate len d)
      (fun p hp => by rw [List.length_replicate]; exact h p hp)
    exact ⟨by simp [arr, hs], by simp [vec, hs]⟩
  | positionalDefault items d os len =>
    simp only [inBoundsB, Bool.and_eq_true, List.all_eq_true, decide_eq_true_eq] at h
    obtain ⟨h1, h2⟩ := h
    have ha := assignList_eq_setSeq items (List.replicate len d) 0
      (by rw [List.length_replicate]; omega)
    have hs := applySingles_eq_foldl os (setSeq (List.replicate len d) 0 items)
      (fun p hp => by rw [length_setSeq, List.length_replicate]; exact h2 p hp)
    exact ⟨by simp [arr, ha, hs], by simp [vec, ha, hs]⟩
  | rep v len => exact ⟨rfl, rfl⟩
  | explicit items => exact ⟨rfl, rfl⟩
  | explicitTrailing items => exact ⟨rfl, rfl⟩

/-- C4 witness: an in-bounds accepted specification (default `7`,
overrides at indices 0 and 4, length 5) evaluates to a value on both
targets. -/
theorem inbounds_accepted_no_panic_witness :
    (arr (ArrLit.defaultSparse (7 : Nat) [(0, 1), (4, 2)] 5)).isSome = true ∧
    (vec (ArrLit.defaultSparse (7 : Nat) [(0, 1), (4, 2)] 5)).isSome = true :=
  inbounds_accepted_no_panic (ArrLit.defaultSparse 7 [(0, 1), (4, 2)] 5) (by decide)

/-- C5: a run-style override with start index `i` and value sequence `s`
(with `i + s.length` within the target length) copies the elements of
`s` to consecutive indices `i, i+1, ..., i+s.length-1`, and every other
position keeps its prior (default) value. -/
theorem run_override_copies (d : α) (len i : Nat) (s : List α)
    (h : i + s.length ≤ len) :
    arrBlock d len [Override.run i s] = some (setSeq (List.replicate len d) i s) ∧
    (∀ k, k < s.length → (setSeq (List.replicate len d) i s)[i + k]? = s[k]?) ∧
    ∀ j, j < len → j < i ∨ i + s.length ≤ j →
      (setSeq (List.replicate len d) i s)[j]? = some d := by
  have hlen : i + s.length ≤ (List.replicate len d).length := by
    rw [List.length_replicate]; exact h
  refine ⟨?_, fun k hk => getElem?_setSeq_mid s (List.replicate len d) i k hk hlen,
    fun j hj hcase => ?_⟩
  · simp only [arrBlock, applyOverrides_cons, applyOverride,
      assignList_eq_setSeq s (List.replicate len d) i hlen]
    rfl
  · rcases hcase with hlt | hge
    · rw [getElem?_setSeq_of_lt s (List.replicate len d) i j hlt]
      simp [List.getElem?_replicate, hj]
    · rw [getElem?_setSeq_of_ge s (List.replicate len d) i j hge]
      simp [List.getElem?_replicate, hj]

/-- C5 witness: the claim's concrete example, default `0`, length `5`,
run override `(index 2, [1, 2])`, yields `[0, 0, 1, 2, 0]`. -/
theorem run_override_copies_witness :
    arrBlock (0 : Nat) 5 [Override.run 2 [1, 2]] = some [0, 0, 1, 2, 0] :=
  (run_override_copies 0 5 2 [1, 2] (by decide)).1.trans (by decide)

/-- C6: a run-style override whose value is the empty sequence performs
no assignment and is not an error: for every specification, the result
with the empty-run override present (anywhere in the override list)
equals the result with that override removed; in particular default
`4`, length `5`, override `(index 0, run [])` yields `[4, 4, 4, 4, 4]`. -/
theorem empty_run_noop :
    (∀ (α : Type) (d : α) (len : Nat) (os1 os2 : List (Override α)) (i : Nat),
      arrBlock d len (os1 ++ Override.run i [] :: os2) = arrBlock d len (os1 ++ os2)) ∧
    arrBlock (4 : Nat) 5 [Override.run 0 []] = some [4, 4, 4, 4, 4] := by
  constructor
  · intro α d len os1 os2 i
    rw [arrBlock, arrBlock]
    generalize List.replicate len d = l
    induction os1 generalizing l with
    | nil => rfl
    | cons o os ih =>
      rw [List.cons_append, List.cons_append, applyOverrides_cons, applyOverrides_cons]
      cases applyOverride l o with
      | none => rfl
      | some l2 => exact ih l2
  · decide

/-- C8 counterexample: a specification with an override index (10) at or
beyond the target length (5) is not rejected by the expander: it
matches the default+overrides macro arm, and for the `vec!` target the
emitted assignment `vec[10] = 1` is an ordinary `Vec` indexed
assignment that the host compiles and that fails only at runtime
(`none` models the runtime panic).  This refutes the claim that such
specifications are rejected at build time. -/
theorem out_of_range_override_panics :
    vec (ArrLit.defaultSparse (0 : Nat) [(10, 1)] 5) = none := by
  decide

/-- C8 (amended): out-of-range override indices are not statically
rejected by the expander; the emitted indexed assignments fail at
runtime instead.  For the default+overrides form, on both emission
targets, the expansion's execution panics exactly when some override
index is at or beyond the target length. -/
theorem out_of_range_iff_runtime_panic (d : α) (os : List (Nat × α)) (len : Nat) :
    (arr (ArrLit.defaultSparse d os len) = none ↔ ∃ p ∈ os, len ≤ p.1) ∧
    (vec (ArrLit.defaultSparse d os len) = none ↔ ∃ p ∈ os, len ≤ p.1) := by
  have h := applySingles_eq_none_iff os (List.replicate len d)
  rw [List.length_replicate] at h
  exact ⟨h, h⟩

end ArrayLit
